import Mathlib

/-!
Verification of the Licensing-Board-Scrape repository core:
the link classification / date inference pipeline
(`src/scrape_licensing_board.py`), the app-variant video separator
(`app/link_filters/video_link_separator.py`), and the content-addressed
PDF acquisition store (`src/download_minutes.py`).

Python strings are modelled as Lean `String` (lists of characters);
`str.lower()` / `str.upper()` / `str.capitalize()` are modelled with the
ASCII case maps `Char.toLower` / `Char.toUpper`; the regular-expression
character classes `\d`, `\s` are modelled by their ASCII meaning.
File contents are byte lists; the file system visible to `save_data`
is an association list from file name to content.
-/

namespace Scrape

/-- A raw anchor record, as produced by `get_href_tags`:
a dictionary with the keys `href` and `body`. -/
structure LinkRecord where
  href : String
  body : String
deriving DecidableEq, Repr

/-- A link record after `extract_date` added a `date` field. -/
structure DatedRecord where
  href : String
  body : String
  date : String
deriving DecidableEq, Repr

/-- `needle.data.isPrefixOf` at some position: models the Python
substring test `needle in hay` on strings. -/
def strContains (needle : List Char) : List Char → Bool
  | [] => needle.isEmpty
  | c :: rest => needle.isPrefixOf (c :: rest) || strContains needle rest

/-- Models `str.lower()` (ASCII case map). -/
def pyLower (s : String) : String := String.mk (s.data.map Char.toLower)

/-- Predicate of `remove_client_side_links`: `href.lower()` starts with
one of the prefixes `tel:`, `mailto:`, `#`, `javascript:`. -/
def isClientSideHref (href : String) : Bool :=
  let h := (pyLower href).data
  "tel:".data.isPrefixOf h || "mailto:".data.isPrefixOf h ||
    "#".data.isPrefixOf h || "javascript:".data.isPrefixOf h

/-- `remove_client_side_links` from `src/scrape_licensing_board.py`:
keeps the records whose lower-cased `href` does not start with any of the
client-side prefixes, in input order. -/
def remove_client_side_links : List LinkRecord → List LinkRecord
  | [] => []
  | link :: rest =>
    if isClientSideHref link.href then remove_client_side_links rest
    else link :: remove_client_side_links rest

/-- The state of the JSON exclude-list file on disk.
`absent`: no file; `badJson`: unreadable as JSON; `notAList`: valid JSON
whose top-level value is not a list; `items xs`: a JSON list of strings. -/
inductive ExcludeFile where
  | absent : ExcludeFile
  | badJson : ExcludeFile
  | notAList : ExcludeFile
  | items : List String → ExcludeFile
deriving DecidableEq

/-- Errors surfaced by the strict pipeline (`src/scrape_licensing_board.py`):
`fileNotFound` models `FileNotFoundError`, `valueError` models `ValueError`,
`typeError` models an uncaught `TypeError` (building a `set` from a
non-iterable JSON scalar). -/
inductive ScrapeError where
  | fileNotFound : ScrapeError
  | valueError : ScrapeError
  | typeError : ScrapeError
deriving DecidableEq

/-- `remove_exclude_links` from `src/scrape_licensing_board.py`:
raises `FileNotFoundError` when the exclude file is absent and
`ValueError` when it contains malformed JSON; otherwise keeps the records
whose `href` is not in the exclude set.  (On a valid-JSON non-list file the
Python `set(json.load(f))` call raises an uncaught `TypeError` for the
non-iterable scalars; iterable non-list values are outside this model.) -/
def remove_exclude_links (links_list : List LinkRecord) :
    ExcludeFile → Except ScrapeError (List LinkRecord)
  | .absent => .error .fileNotFound
  | .badJson => .error .valueError
  | .notAList => .error .typeError
  | .items xs => .ok (links_list.filter (fun link => !(xs.contains link.href)))

/-- `_is_youtube_url` from `src/scrape_licensing_board.py`; the input is
always a string here, so the `isinstance` guard is dropped. -/
def isYoutubeUrl (url : String) : Bool :=
  let u := pyLower url
  strContains "youtube.com".data u.data || strContains "youtu.be".data u.data ||
    strContains "youtube".data u.data

/-- `extract_hearing_video_links` from `src/scrape_licensing_board.py`:
separates the list into `(video_links, minutes_links)` preserving order. -/
def extract_hearing_video_links : List LinkRecord → List LinkRecord × List LinkRecord
  | [] => ([], [])
  | link :: rest =>
    let (video, minutes) := extract_hearing_video_links rest
    if isYoutubeUrl link.href then (link :: video, minutes)
    else (video, link :: minutes)

/-- Predicate of `VideoLinkSeparator.process`
(`app/link_filters/video_link_separator.py`): only the two substring
tests `"youtube.com"` and `"youtu.be"` on the lower-cased href. -/
def videoSeparatorTest (href : String) : Bool :=
  let h := pyLower href
  strContains "youtube.com".data h.data || strContains "youtu.be".data h.data

/-- `VideoLinkSeparator.process` from
`app/link_filters/video_link_separator.py`. -/
def VideoLinkSeparator.process : List LinkRecord → List LinkRecord × List LinkRecord
  | [] => ([], [])
  | link :: rest =>
    let (video, other) := VideoLinkSeparator.process rest
    if videoSeparatorTest link.href then (link :: video, other)
    else (video, link :: other)

/-- `append_to_url_exclude_list` from `src/download_minutes.py`:
loads the persisted list (resetting to empty when the file is absent,
malformed, or not a list), appends the URL only when not already present,
and rewrites the file in that case.  The returned value is the state of
the persisted file after the call. -/
def append_to_url_exclude_list (new_url : String) (file : ExcludeFile) : ExcludeFile :=
  let url_list : List String :=
    match file with
    | .absent => []
    | .badJson => []
    | .notAList => []
    | .items xs => xs
  if new_url ∈ url_list then file
  else .items (url_list ++ [new_url])

/-- First success of `f` over the alternatives in `l`: models the order in
which a backtracking regex engine tries the alternatives. -/
def firstSome (f : α → Option β) : List α → Option β
  | [] => none
  | a :: rest =>
    match f a with
    | some b => some b
    | none => firstSome f rest

/-- Leftmost-match search: models `re.search`, trying a match anchored at each
position of the string from left to right. -/
def searchAux (f : List Char → Option α) : List Char → Option α
  | [] => f []
  | c :: rest =>
    match f (c :: rest) with
    | some r => some r
    | none => searchAux f rest

/-- Case-insensitive literal match (models `re.IGNORECASE` on a literal,
ASCII case folding): returns the matched text and the rest. -/
def ciLiteral : List Char → List Char → Option (List Char × List Char)
  | [], cs => some ([], cs)
  | _ :: _, [] => none
  | p :: ps, c :: cs =>
    if c.toLower == p.toLower then
      match ciLiteral ps cs with
      | some (t, r) => some (c :: t, r)
      | none => none
    else none

/-- ASCII `\d`. -/
def isDigitChar (c : Char) : Bool := c.isDigit

/-- ASCII `\s` — the characters matched by the Python pattern class. -/
def isSpaceChar (c : Char) : Bool :=
  c == ' ' || c == '\t' || c == '\n' || c == '\x0d' || c == '\x0b' || c == '\x0c'

/-- Alternatives of the greedy quantifier `\d{lo,hi}` in backtracking order:
`hi` digits first, down to `lo`. -/
def digitTakes (lo hi : Nat) (cs : List Char) : List (List Char × List Char) :=
  ((List.range' lo (hi - lo + 1)).reverse).filterMap (fun k =>
    let t := cs.take k
    if t.length == k && t.all isDigitChar then some (t, cs.drop k) else none)

/-- Alternatives of the greedy quantifier `[class]+` in backtracking order:
the maximal run first, down to one character. -/
def classTakesPlus (p : Char → Bool) (cs : List Char) : List (List Char × List Char) :=
  let m := (cs.takeWhile p).length
  (List.range m).map (fun i => (cs.take (m - i), cs.drop (m - i)))

/-- Alternatives of the greedy quantifier `[class]*` in backtracking order:
the maximal run first, down to the empty run. -/
def classTakesStar (p : Char → Bool) (cs : List Char) : List (List Char × List Char) :=
  let m := (cs.takeWhile p).length
  (List.range (m + 1)).map (fun i => (cs.take (m - i), cs.drop (m - i)))

/-- The twelve English month names: the keys of `MONTH_NAME_TO_NUM`
(built in the source from `datetime(2000, i, 1).strftime("%B")`). -/
def monthNames : List String :=
  ["January", "February", "March", "April", "May", "June",
   "July", "August", "September", "October", "November", "December"]

/-- `MONTH_NAME_TO_NUM` from `src/scrape_licensing_board.py`. -/
def MONTH_NAME_TO_NUM : List (String × Nat) :=
  (monthNames.zip [1, 2, 3, 4, 5, 6, 7, 8, 9, 10, 11, 12])

/-- The month-name alternation
`(January|February|...|December)` (case-insensitive). -/
def monthAlt (cs : List Char) : Option (List Char × List Char) :=
  firstSome (fun name => ciLiteral name.data cs) monthNames

/-- Alternatives of the optional ordinal suffix `(?:st|nd|rd|th)?`
(case-insensitive), in greedy backtracking order. -/
def ordinalOpt (cs : List Char) : List (List Char × List Char) :=
  (["st", "nd", "rd", "th"].filterMap (fun s => ciLiteral s.data cs)) ++ [([], cs)]

/-- Alternatives of the optional year group `(?:,\s*(\d{4}))?` of
`BODY_MONTH_DAY_PATTERN`, in greedy backtracking order; the captured group
is `none` when the optional part does not participate. -/
def yearOptAlts (cs : List Char) : List (Option (List Char) × List Char) :=
  (match cs with
   | ',' :: r1 =>
     (classTakesStar isSpaceChar r1).filterMap (fun alt =>
       firstSome (fun yt => some (some yt.1, yt.2)) (digitTakes 4 4 alt.2))
   | _ => []) ++ [(none, cs)]

/-- Anchored match of `BODY_MONTH_DAY_PATTERN`:
`(Month)[\s,]+(\d{1,2})(?:st|nd|rd|th)?(?:,\s*(\d{4}))?`, case-insensitive.
Returns the three captured groups (month text, day digits, optional year). -/
def bodyMatchAt (cs : List Char) : Option (List Char × List Char × Option (List Char)) :=
  match monthAlt cs with
  | none => none
  | some (mo, r1) =>
    firstSome (fun s1 =>
      firstSome (fun dt =>
        firstSome (fun o1 =>
          firstSome (fun yr => some (mo, dt.1, yr.1)) (yearOptAlts o1.2))
          (ordinalOpt dt.2))
        (digitTakes 1 2 s1.2))
      (classTakesPlus (fun c => isSpaceChar c || c == ',') r1)

/-- Anchored match of `HREF_NUMERIC_PATTERN`: `(\d{1,2})-(\d{1,2})-(\d{2,4})`. -/
def numMatchAt (cs : List Char) : Option (List Char × List Char × List Char) :=
  firstSome (fun mt =>
    match mt.2 with
    | '-' :: r2 =>
      firstSome (fun dt =>
        match dt.2 with
        | '-' :: r4 =>
          firstSome (fun yt => some (mt.1, dt.1, yt.1)) (digitTakes 2 4 r4)
        | _ => none)
        (digitTakes 1 2 r2)
    | _ => none)
    (digitTakes 1 2 cs)

/-- Anchored match of `HREF_MONTH_PATTERN`:
`(Month)[^\d]*(\d{1,2})[^\d]*(\d{4})`, case-insensitive. -/
def monthMatchAt (cs : List Char) : Option (List Char × List Char × List Char) :=
  match monthAlt cs with
  | none => none
  | some (mo, r1) =>
    firstSome (fun s1 =>
      firstSome (fun dt =>
        firstSome (fun s2 =>
          firstSome (fun yr => some (mo, dt.1, yr.1)) (digitTakes 4 4 s2.2))
          (classTakesStar (fun c => !(isDigitChar c)) dt.2))
        (digitTakes 1 2 s1.2))
      (classTakesStar (fun c => !(isDigitChar c)) r1)

/-- `BODY_MONTH_DAY_PATTERN.search`. -/
def bodySearch (s : String) : Option (List Char × List Char × Option (List Char)) :=
  searchAux bodyMatchAt s.data

/-- `HREF_NUMERIC_PATTERN.search`. -/
def numSearch (s : String) : Option (List Char × List Char × List Char) :=
  searchAux numMatchAt s.data

/-- `HREF_MONTH_PATTERN.search`. -/
def monthSearch (s : String) : Option (List Char × List Char × List Char) :=
  searchAux monthMatchAt s.data

/-- Models `int(...)` on a string of ASCII digits. -/
def natOfDigits (cs : List Char) : Nat :=
  cs.foldl (fun a c => 10 * a + (c.toNat - 48)) 0

/-- The decimal digit character for a value below ten. -/
def digitChar10 (d : Nat) : Char := Char.ofNat (48 + d)

/-- Decimal digit characters of `n`, most significant first; the first
argument is fuel, always called with fuel at least `n`. -/
def natStrAux : Nat → Nat → List Char
  | 0, _ => []
  | _ + 1, 0 => []
  | fuel + 1, n + 1 => natStrAux fuel ((n + 1) / 10) ++ [digitChar10 ((n + 1) % 10)]

/-- Models Python `str(...)` on a non-negative integer. -/
def natStr (n : Nat) : String :=
  if n = 0 then "0" else String.mk (natStrAux n n)

/-- Models the format `f"{n:02d}"`: decimal with zero padding to width two. -/
def pad2 (n : Nat) : String :=
  if n < 10 then "0" ++ natStr n else natStr n

/-- Models `str.capitalize()` (ASCII case maps): first character upper-cased,
remaining characters lower-cased. -/
def pyCapitalize (s : String) : String :=
  match s.data with
  | [] => ""
  | c :: rest => String.mk (c.toUpper :: rest.map Char.toLower)

/-- The value of a hexadecimal digit character, if it is one. -/
def hexDigitVal (c : Char) : Option Nat :=
  if '0' ≤ c ∧ c ≤ '9' then some (c.toNat - 48)
  else if 'a' ≤ c ∧ c ≤ 'f' then some (c.toNat - 87)
  else if 'A' ≤ c ∧ c ≤ 'F' then some (c.toNat - 55)
  else none

/-- Models `urllib.parse.unquote` at the byte level: every valid `%XX`
escape is replaced by the character with that code, other characters are
kept.  (Escapes that form multi-byte UTF-8 sequences are decoded bytewise
in this model; the inputs of interest decode to ASCII.) -/
def unquoteChars : List Char → List Char
  | '%' :: a :: b :: rest =>
    match hexDigitVal a, hexDigitVal b with
    | some x, some y => Char.ofNat (16 * x + y) :: unquoteChars rest
    | _, _ => '%' :: unquoteChars (a :: b :: rest)
  | c :: rest => c :: unquoteChars rest
  | [] => []

/-- `urllib.parse.unquote` on strings (see `unquoteChars`). -/
def unquote (s : String) : String := String.mk (unquoteChars s.data)

/-- The resolved date components `year_str`, `month_str`, `day_str`
of `extract_date`; `none` models Python `None`. -/
structure Comps where
  year : Option String
  month : Option String
  day : Option String
deriving DecidableEq, Repr

/-- Fill the components still missing in `c` from `c2`, never overwriting:
models the Python assignments `x = x or new_x`. -/
def Comps.fillFrom (c c2 : Comps) : Comps :=
  ⟨c.year <|> c2.year, c.month <|> c2.month, c.day <|> c2.day⟩

/-- Models `MONTH_NAME_TO_NUM[name]`; the lookup in the source raises
`KeyError` on a missing key — the theorems below show the key is always
present for a name captured by either month pattern, so the default is
unreachable. -/
def monthLookup (name : String) : Nat :=
  (MONTH_NAME_TO_NUM.lookup name).getD 0

/-- Strategy 1 of `extract_date`: components read from the body match
(`day_str`, `month_str`, `year_str` as assigned under `if body_match:`). -/
def bodyComps (body : String) : Comps :=
  match bodySearch body with
  | none => ⟨none, none, none⟩
  | some (mo, dy, yr) =>
    { day := if dy.isEmpty then none else some (pad2 (natOfDigits dy))
      month := if mo.isEmpty then none
               else some (pad2 (monthLookup (pyCapitalize (String.mk mo))))
      year := yr.bind (fun y => if y.isEmpty then none else some (String.mk y)) }

/-- Strategy 2 of `extract_date`: component contributions of the numeric
href match, with two-digit years normalized by adding 2000. -/
def numComps (href_decoded : String) : Comps :=
  match numSearch href_decoded with
  | none => ⟨none, none, none⟩
  | some (m, d, y) =>
    { month := some (pad2 (natOfDigits m))
      day := some (pad2 (natOfDigits d))
      year := if y.isEmpty then none
              else
                some (natStr (if natOfDigits y < 100 then natOfDigits y + 2000
                              else natOfDigits y)) }

/-- Strategy 3 of `extract_date`: component contributions of the named-month
href match. -/
def monthComps (href_decoded : String) : Comps :=
  match monthSearch href_decoded with
  | none => ⟨none, none, none⟩
  | some (mo, dy, yr) =>
    { month := some (pad2 (monthLookup (pyCapitalize (String.mk mo))))
      day := some (pad2 (natOfDigits dy))
      year := some (String.mk yr) }

/-- The guard `if not month_str or not day_str or not year_str`. -/
def Comps.incomplete (c : Comps) : Bool :=
  c.month.isNone || c.day.isNone || c.year.isNone

/-- The date string composed at the end of the `extract_date` loop body,
with the placeholders `yyyy`, `mm`, `dd` for unresolved components. -/
def Comps.dateString (c : Comps) : String :=
  (c.year.getD "yyyy") ++ "-" ++ (c.month.getD "mm") ++ "-" ++ (c.day.getD "dd")

/-- The resolved components after the three strategies of `extract_date`
ran in order, each later one only when a component is still missing,
filling without overwriting. -/
def resolveComps (body href_decoded : String) : Comps :=
  let c1 := bodyComps body
  let c2 := if c1.incomplete then c1.fillFrom (numComps href_decoded) else c1
  if c2.incomplete then c2.fillFrom (monthComps href_decoded) else c2

/-- One iteration of the `extract_date` loop: resolve the components from
the body and the percent-decoded href, compose the date string (with
placeholders for unresolved components) and add it to a copy of the item. -/
def extract_date_item (item : LinkRecord) : DatedRecord :=
  ⟨item.href, item.body, (resolveComps item.body (unquote item.href)).dateString⟩

/-- `extract_date` from `src/scrape_licensing_board.py`. -/
def extract_date (links_list : List LinkRecord) : List DatedRecord :=
  links_list.map extract_date_item

/-- The data produced by one successful run of `main`
(`src/scrape_licensing_board.py`): the two saved link files and the
entries of the stats dictionary. -/
structure RunOutput where
  video_links : List LinkRecord
  minutes_links : List DatedRecord
  total_links : Nat
  client_side_links : Nat
  excluded_links : Nat
  video_count : Nat
  minutes_count : Nat
deriving DecidableEq

/-- The pure part of `main` from `src/scrape_licensing_board.py`, from the
parsed link list onwards (fetching and HTML parsing are I/O collaborators
outside this model): the filter chain, the video split, date extraction
and the stats bookkeeping. -/
def scrape_pipeline (links_list : List LinkRecord) (exclude_file : ExcludeFile) :
    Except ScrapeError RunOutput :=
  let total := links_list.length
  let l1 := remove_client_side_links links_list
  let client_side := total - l1.length
  match remove_exclude_links l1 exclude_file with
  | .error e => .error e
  | .ok l2 =>
    let excluded := total - client_side - l2.length
    let (video, minutes) := extract_hearing_video_links l2
    .ok ⟨video, extract_date minutes, total, client_side, excluded,
         video.length, minutes.length⟩

/-- The process exit code of `main`: the handlers for `FileNotFoundError`
and `ValueError` call `sys.exit(1)`; a completed run exits normally. -/
def main_exit_code (links_list : List LinkRecord) (exclude_file : ExcludeFile) : Nat :=
  match scrape_pipeline links_list exclude_file with
  | .error _ => 1
  | .ok _ => 0

/-- File contents as byte lists. -/
abbrev Bytes := List Nat

/-- The files of the download directory visible to `save_data`:
an association list from file name to content. -/
abbrev Store := List (String × Bytes)

/-- Models `hashlib.sha256(...).digest()`: in this embedding the digest of
a byte string is the byte string itself, an injective stand-in for SHA-256;
`save_data` uses digests only to compare file contents for equality. -/
def sha256 (b : Bytes) : Bytes := b

/-- The candidate file name probed by `save_data` at a given index:
`voting_minutes_<date>.pdf` for index 1, `voting_minutes_<date>_v<i>.pdf`
for larger indices. -/
def candidate_name (date_str : String) (index : Nat) : String :=
  if index = 1 then "voting_minutes_" ++ date_str ++ ".pdf"
  else "voting_minutes_" ++ date_str ++ "_v" ++ natStr index ++ ".pdf"

/-- The content stored for a date at a version index, if that file exists. -/
def slotContent (store : Store) (date_str : String) (index : Nat) : Option Bytes :=
  store.lookup (candidate_name date_str index)

/-- The version-probing loop of `save_data` (`while True:` over increasing
indices): at each index, write and return if the candidate file is absent,
return the candidate if its digest matches, else probe the next index.
The first argument is fuel; `save_data` passes enough fuel for the finitely
many files on disk, and the termination theorem shows it never runs out. -/
def save_loop (file_content : Bytes) (date_str : String) (store : Store) :
    Nat → Nat → Option (String × Store)
  | 0, _ => none
  | fuel + 1, index =>
    let candidate := candidate_name date_str index
    match store.lookup candidate with
    | none => some (candidate, (candidate, file_content) :: store)
    | some existing =>
      if sha256 existing = sha256 file_content then some (candidate, store)
      else save_loop file_content date_str store fuel (index + 1)

/-- `save_data` from `src/download_minutes.py`: returns the path of the
file holding `file_content` after the call, together with the download
directory contents after the call. -/
def save_data (file_content : Bytes) (date_str : String) (store : Store) :
    Option (String × Store) :=
  let base_hit : Bool :=
    match store.lookup (candidate_name date_str 1) with
    | some existing => sha256 existing = sha256 file_content
    | none => false
  if base_hit then some (candidate_name date_str 1, store)
  else save_loop file_content date_str store (store.length + 1) 1

/-- The store reachable by `save_data` for a date: the files for that date
occupy exactly the version indices `1..n`, and no two of them have the same
digest. -/
structure WellFormed (store : Store) (date_str : String) (n : Nat) : Prop where
  filled : ∀ i, 1 ≤ i → ((slotContent store date_str i).isSome ↔ i ≤ n)
  distinct : ∀ i j bi bj, 1 ≤ i → i < j →
    slotContent store date_str i = some bi → slotContent store date_str j = some bj →
    sha256 bi ≠ sha256 bj

theorem remove_client_side_links_eq_filter (links : List LinkRecord) :
    remove_client_side_links links
      = links.filter (fun link => !isClientSideHref link.href) := by
  induction links with
  | nil => rfl
  | cons link rest ih =>
    by_cases h : isClientSideHref link.href = true <;>
      simp [remove_client_side_links, List.filter, h, ih]

theorem extract_hearing_video_links_eq_filter (links : List LinkRecord) :
    extract_hearing_video_links links
      = (links.filter (fun link => isYoutubeUrl link.href),
         links.filter (fun link => !isYoutubeUrl link.href)) := by
  induction links with
  | nil => rfl
  | cons link rest ih =>
    by_cases h : isYoutubeUrl link.href = true <;>
      simp [extract_hearing_video_links, List.filter, h, ih]

theorem videoLinkSeparator_process_eq_filter (links : List LinkRecord) :
    VideoLinkSeparator.process links
      = (links.filter (fun link => videoSeparatorTest link.href),
         links.filter (fun link => !videoSeparatorTest link.href)) := by
  induction links with
  | nil => rfl
  | cons link rest ih =>
    by_cases h : videoSeparatorTest link.href = true <;>
      simp [VideoLinkSeparator.process, List.filter, h, ih]

theorem filter_length_partition (p : LinkRecord → Bool) (l : List LinkRecord) :
    (l.filter p).length + (l.filter (fun x => !p x)).length = l.length := by
  induction l with
  | nil => rfl
  | cons a l ih =>
    by_cases h : p a = true <;> simp [List.filter, h] <;> omega

theorem filter_count_partition (p : LinkRecord → Bool) (l : List LinkRecord)
    (r : LinkRecord) :
    (l.filter p).count r + (l.filter (fun x => !p x)).count r = l.count r := by
  cases hp : p r
  · have h1 : (l.filter p).count r = 0 :=
      List.count_eq_zero.2 (by simp [List.mem_filter, hp])
    have h2 : (l.filter (fun x => !p x)).count r = l.count r :=
      List.count_filter (by simp [hp])
    omega
  · have h1 : (l.filter p).count r = l.count r := List.count_filter hp
    have h2 : (l.filter (fun x => !p x)).count r = 0 :=
      List.count_eq_zero.2 (by simp [List.mem_filter, hp])
    omega

theorem filter_mem_partition (p : LinkRecord → Bool) (l : List LinkRecord)
    (r : LinkRecord) :
    ((r ∈ l.filter p ∨ r ∈ l.filter (fun x => !p x)) ↔ r ∈ l)
    ∧ ¬(r ∈ l.filter p ∧ r ∈ l.filter (fun x => !p x)) := by
  cases hp : p r <;> simp [List.mem_filter, hp]

/-- C7: the video/document split is a total partition — for both
`extract_hearing_video_links` and `VideoLinkSeparator.process`, the two
output lists together have the input's length, every record of the input is
in exactly one output (counting multiplicity), and no record appears in
both; both are pure functions of the input list. -/
theorem video_split_partition (links : List LinkRecord) :
    ((extract_hearing_video_links links).1.length
        + (extract_hearing_video_links links).2.length = links.length
      ∧ (∀ r, (r ∈ (extract_hearing_video_links links).1
            ∨ r ∈ (extract_hearing_video_links links).2) ↔ r ∈ links)
      ∧ (∀ r, ¬(r ∈ (extract_hearing_video_links links).1
            ∧ r ∈ (extract_hearing_video_links links).2))
      ∧ (∀ r, (extract_hearing_video_links links).1.count r
            + (extract_hearing_video_links links).2.count r = links.count r))
    ∧ ((VideoLinkSeparator.process links).1.length
        + (VideoLinkSeparator.process links).2.length = links.length
      ∧ (∀ r, (r ∈ (VideoLinkSeparator.process links).1
            ∨ r ∈ (VideoLinkSeparator.process links).2) ↔ r ∈ links)
      ∧ (∀ r, ¬(r ∈ (VideoLinkSeparator.process links).1
            ∧ r ∈ (VideoLinkSeparator.process links).2))
      ∧ (∀ r, (VideoLinkSeparator.process links).1.count r
            + (VideoLinkSeparator.process links).2.count r = links.count r)) := by
  rw [extract_hearing_video_links_eq_filter, videoLinkSeparator_process_eq_filter]
  exact ⟨⟨filter_length_partition _ links,
          fun r => (filter_mem_partition _ links r).1,
          fun r => (filter_mem_partition _ links r).2,
          fun r => filter_count_partition _ links r⟩,
         ⟨filter_length_partition _ links,
          fun r => (filter_mem_partition _ links r).1,
          fun r => (filter_mem_partition _ links r).2,
          fun r => filter_count_partition _ links r⟩⟩

/-- C3: each filter of the chain produces a subsequence of its input
(so the relative order of survivors is unchanged), and the per-filter
removal counts plus the final survivor count add up to the original
input count. -/
theorem filter_chain_conservation (links l1 l2 : List LinkRecord) (xs : List String)
    (h1 : l1 = remove_client_side_links links)
    (h2 : remove_exclude_links l1 (.items xs) = .ok l2) :
    l1.Sublist links ∧ l2.Sublist l1 ∧
      (links.length - l1.length) + (l1.length - l2.length) + l2.length
        = links.length := by
  have hsub1 : l1.Sublist links := by
    rw [h1, remove_client_side_links_eq_filter]; exact List.filter_sublist links
  have hl2 : l2 = l1.filter (fun link => !(xs.contains link.href)) := by
    simpa [remove_exclude_links] using h2.symm
  have hsub2 : l2.Sublist l1 := by rw [hl2]; exact List.filter_sublist l1
  have hle1 := hsub1.length_le
  have hle2 := hsub2.length_le
  exact ⟨hsub1, hsub2, by omega⟩

theorem filter_chain_conservation_witness :
    ([⟨"/a", ""⟩, ⟨"/b", ""⟩] : List LinkRecord)
        = remove_client_side_links [⟨"tel:123", ""⟩, ⟨"/a", ""⟩, ⟨"/b", ""⟩]
      ∧ remove_exclude_links [⟨"/a", ""⟩, ⟨"/b", ""⟩] (.items ["/b"])
        = .ok [⟨"/a", ""⟩]
      ∧ (([⟨"/a", ""⟩, ⟨"/b", ""⟩] : List LinkRecord).Sublist
            [⟨"tel:123", ""⟩, ⟨"/a", ""⟩, ⟨"/b", ""⟩]
        ∧ ([⟨"/a", ""⟩] : List LinkRecord).Sublist [⟨"/a", ""⟩, ⟨"/b", ""⟩]
        ∧ (3 - 2) + (2 - 1) + 1 = 3) := by
  refine ⟨by decide, by rfl, ?_⟩
  have h := filter_chain_conservation
    [⟨"tel:123", ""⟩, ⟨"/a", ""⟩, ⟨"/b", ""⟩] [⟨"/a", ""⟩, ⟨"/b", ""⟩] [⟨"/a", ""⟩]
    ["/b"] (by decide) (by rfl)
  simp only [List.length_cons, List.length_nil] at h
  exact ⟨h.1, h.2.1, by omega⟩

/-- C4: the strict exclude-list filter removes exactly the records whose
`href` is in the exclude set, raises `FileNotFoundError` when the file is
absent and `ValueError` on malformed JSON, and `main` turns both into a
non-zero process exit. -/
theorem exclude_filter_strict :
    (∀ links, remove_exclude_links links .absent = .error .fileNotFound)
    ∧ (∀ links, remove_exclude_links links .badJson = .error .valueError)
    ∧ (∀ links xs, remove_exclude_links links (.items xs)
        = .ok (links.filter (fun link => !(xs.contains link.href))))
    ∧ (∀ (links : List LinkRecord) (xs : List String) (r : LinkRecord),
        r ∈ links.filter (fun link => !(xs.contains link.href))
          ↔ (r ∈ links ∧ r.href ∉ xs))
    ∧ (∀ links, main_exit_code links .absent = 1)
    ∧ (∀ links, main_exit_code links .badJson = 1) := by
  refine ⟨fun links => rfl, fun links => rfl, fun links xs => rfl, ?_,
         fun links => rfl, fun links => rfl⟩
  intro links xs r
  simp [List.mem_filter, List.contains, List.elem_iff]

/-- C8: adding a URL to the exclude list is idempotent, never creates a
duplicate entry, leaves the persisted list untouched when the URL is
already present, and otherwise appends it and persists immediately, after
which the URL is stored exactly once. -/
theorem exclude_add_idempotent :
    (∀ url file, append_to_url_exclude_list url (append_to_url_exclude_list url file)
        = append_to_url_exclude_list url file)
    ∧ (∀ url (xs : List String), url ∈ xs →
        append_to_url_exclude_list url (.items xs) = .items xs)
    ∧ (∀ url (xs : List String), url ∉ xs →
        append_to_url_exclude_list url (.items xs) = .items (xs ++ [url])
          ∧ (xs ++ [url]).count url = 1) := by
  refine ⟨?_, ?_, ?_⟩
  · intro url file
    cases file <;> simp only [append_to_url_exclude_list] <;> split <;>
      simp_all [append_to_url_exclude_list]
  · intro url xs h
    simp [append_to_url_exclude_list, h]
  · intro url xs h
    refine ⟨by simp [append_to_url_exclude_list, h], ?_⟩
    rw [List.count_append]
    rw [List.count_eq_zero.2 h]
    simp

theorem exclude_add_idempotent_witness :
    (("u" : String) ∈ ["u", "w"]
        ∧ append_to_url_exclude_list "u" (.items ["u", "w"]) = .items ["u", "w"])
    ∧ (("u" : String) ∉ ["w"]
        ∧ append_to_url_exclude_list "u" (.items ["w"]) = .items ["w", "u"]
        ∧ (["w", "u"] : List String).count "u" = 1) := by
  refine ⟨⟨by decide, exclude_add_idempotent.2.1 "u" ["u", "w"] (by decide)⟩,
          ⟨by decide, ?_⟩⟩
  have h := exclude_add_idempotent.2.2 "u" ["w"] (by decide)
  simpa using h

theorem fill_guarded (c c2 : Comps) :
    (if c.incomplete then c.fillFrom c2 else c) = c.fillFrom c2 := by
  rcases c with ⟨y, m, d⟩
  cases y <;> cases m <;> cases d <;>
    simp [Comps.incomplete, Comps.fillFrom]

theorem resolveComps_eq_fill (body href_decoded : String) :
    resolveComps body href_decoded
      = ((bodyComps body).fillFrom (numComps href_decoded)).fillFrom
          (monthComps href_decoded) := by
  show (let c1 := bodyComps body;
        let c2 := if c1.incomplete then c1.fillFrom (numComps href_decoded) else c1;
        if c2.incomplete then c2.fillFrom (monthComps href_decoded) else c2) = _
  simp only [fill_guarded]

/-- C2: the three date strategies are tried in the fixed order body
pattern, numeric href pattern, named-month href pattern; a later strategy
only fills components still missing and never overwrites one already
resolved — the result is the left-biased component-wise combination of the
three strategies' contributions.  For body `Meeting on March 3rd, 2023`
and an href containing `02-02-2022`, the resolved date is `2023-03-03`. -/
theorem extract_date_precedence :
    (∀ item : LinkRecord, extract_date_item item =
       ⟨item.href, item.body,
        (((bodyComps item.body).fillFrom (numComps (unquote item.href))).fillFrom
           (monthComps (unquote item.href))).dateString⟩)
    ∧ extract_date [⟨"/x/02-02-2022/file", "Meeting on March 3rd, 2023"⟩]
        = [⟨"/x/02-02-2022/file", "Meeting on March 3rd, 2023", "2023-03-03"⟩] := by
  constructor
  · intro item
    show (⟨item.href, item.body,
           (resolveComps item.body (unquote item.href)).dateString⟩ : DatedRecord) = _
    rw [resolveComps_eq_fill]
  · rfl

theorem firstSome_eq_some {α β : Type} {f : α → Option β} {l : List α} {b : β}
    (h : firstSome f l = some b) : ∃ a ∈ l, f a = some b := by
  induction l with
  | nil => simp [firstSome] at h
  | cons a rest ih =>
    rw [firstSome] at h
    cases hfa : f a with
    | some b0 =>
      rw [hfa] at h
      exact ⟨a, by simp, by rw [hfa]; exact h⟩
    | none =>
      rw [hfa] at h
      obtain ⟨a2, ha2, hfa2⟩ := ih h
      exact ⟨a2, by simp [ha2], hfa2⟩

theorem searchAux_eq_some {α : Type} {f : List Char → Option α} {cs : List Char} {a : α}
    (h : searchAux f cs = some a) : ∃ cs2, f cs2 = some a := by
  induction cs with
  | nil => exact ⟨[], h⟩
  | cons c rest ih =>
    rw [searchAux] at h
    cases hf : f (c :: rest) with
    | some r => rw [hf] at h; exact ⟨c :: rest, by rw [hf]; exact h⟩
    | none => rw [hf] at h; exact ih h

theorem digitTakes_mem (lo hi : Nat) {cs t r : List Char} (hlohi : lo ≤ hi)
    (h : (t, r) ∈ digitTakes lo hi cs) :
    t.all isDigitChar = true ∧ lo ≤ t.length ∧ t.length ≤ hi := by
  unfold digitTakes at h
  rw [List.mem_filterMap] at h
  obtain ⟨k, hk, heq⟩ := h
  rw [List.mem_reverse, List.mem_range'] at hk
  obtain ⟨i, hilt, rfl⟩ := hk
  simp only at heq
  split at heq
  · rename_i hcond
    rw [Bool.and_eq_true, beq_iff_eq] at hcond
    obtain ⟨hlen, hdig⟩ := hcond
    obtain ⟨rfl, rfl⟩ : t = cs.take (lo + 1 * i) ∧ r = cs.drop (lo + 1 * i) := by
      constructor <;> injection heq with h2 <;> cases h2 <;> rfl
    exact ⟨hdig, by omega, by omega⟩
  · exact absurd heq (by simp)

theorem ciLiteral_eq_some : ∀ {ps cs t r : List Char}, ciLiteral ps cs = some (t, r) →
    t.map Char.toLower = ps.map Char.toLower ∧ cs = t ++ r := by
  intro ps
  induction ps with
  | nil =>
    intro cs t r h
    rw [ciLiteral] at h
    injection h with h
    injection h with h1 h2
    subst h1; subst h2
    exact ⟨rfl, rfl⟩
  | cons p ps ih =>
    intro cs t r h
    cases cs with
    | nil => exact absurd h (by rw [ciLiteral]; simp)
    | cons c cs2 =>
      rw [ciLiteral] at h
      split at h
      · rename_i hcase
        cases hci : ciLiteral ps cs2 with
        | none => rw [hci] at h; exact absurd h (by simp)
        | some pr =>
          obtain ⟨t2, r2⟩ := pr
          rw [hci] at h
          injection h with h
          injection h with h1 h2
          subst h1; subst h2
          obtain ⟨hmap, happ⟩ := ih hci
          refine ⟨?_, by rw [happ]; rfl⟩
          simp only [List.map, hmap]
          rw [beq_iff_eq] at hcase
          rw [hcase]
      · exact absurd h (by simp)

theorem yearOptAlts_mem {cs : List Char} {p : Option (List Char) × List Char}
    (h : p ∈ yearOptAlts cs) :
    p.1 = none ∨ ∃ y, p.1 = some y ∧ y.all isDigitChar = true ∧ y.length = 4 := by
  unfold yearOptAlts at h
  rw [List.mem_append] at h
  rcases h with h | h
  · split at h
    · rw [List.mem_filterMap] at h
      obtain ⟨alt, halt, heq⟩ := h
      obtain ⟨yt, hyt, heq2⟩ := firstSome_eq_some heq
      obtain ⟨yt1, yt2⟩ := yt
      obtain ⟨hdig, h4, h42⟩ := digitTakes_mem 4 4 (by omega) hyt
      right
      refine ⟨yt1, ?_, hdig, by omega⟩
      injection heq2 with heq2
      rw [← heq2]
    · exact absurd h (by simp)
  · left
    rw [List.mem_singleton] at h
    rw [h]

theorem monthAlt_eq_some {cs mo r : List Char} (h : monthAlt cs = some (mo, r)) :
    ∃ name ∈ monthNames, mo.map Char.toLower = name.data.map Char.toLower := by
  obtain ⟨name, hname, hci⟩ := firstSome_eq_some h
  exact ⟨name, hname, (ciLiteral_eq_some hci).1⟩

theorem bodyMatchAt_groups {cs mo dy : List Char} {yr : Option (List Char)}
    (h : bodyMatchAt cs = some (mo, dy, yr)) :
    (∃ name ∈ monthNames, mo.map Char.toLower = name.data.map Char.toLower)
    ∧ dy ≠ [] ∧ dy.all isDigitChar = true
    ∧ ∀ y, yr = some y → (y ≠ [] ∧ y.all isDigitChar = true) := by
  unfold bodyMatchAt at h
  cases hma : monthAlt cs with
  | none => rw [hma] at h; exact absurd h (by simp)
  | some mr =>
    obtain ⟨mo2, r1⟩ := mr
    rw [hma] at h
    obtain ⟨s1, hs1, h2⟩ := firstSome_eq_some h
    obtain ⟨dt, hdt, h3⟩ := firstSome_eq_some h2
    obtain ⟨dt1, dt2⟩ := dt
    obtain ⟨o1, ho1, h4⟩ := firstSome_eq_some h3
    obtain ⟨yy, hyy, h5⟩ := firstSome_eq_some h4
    obtain ⟨yy1, yy2⟩ := yy
    injection h5 with h5
    injection h5 with hmo h5
    injection h5 with hdy hyr
    subst hmo; subst hdy; subst hyr
    obtain ⟨hdig, h1len, h2len⟩ := digitTakes_mem 1 2 (by omega) hdt
    refine ⟨monthAlt_eq_some hma, ?_, hdig, ?_⟩
    · intro hnil
      have h0 : dt1 = [] := hnil
      subst h0
      simp at h1len
    · intro y hy
      rcases yearOptAlts_mem hyy with hnone | ⟨y2, hy2, hy2dig, hy2len⟩
      · rw [hnone] at hy; exact absurd hy (by simp)
      · rw [hy2] at hy
        injection hy with hy
        subst hy
        exact ⟨by intro hnil; rw [hnil] at hy2len; simp at hy2len, hy2dig⟩

theorem numMatchAt_groups {cs m d y : List Char}
    (h : numMatchAt cs = some (m, d, y)) :
    (m ≠ [] ∧ m.all isDigitChar = true ∧ m.length ≤ 2)
    ∧ (d ≠ [] ∧ d.all isDigitChar = true ∧ d.length ≤ 2)
    ∧ (y ≠ [] ∧ y.all isDigitChar = true ∧ 2 ≤ y.length ∧ y.length ≤ 4) := by
  unfold numMatchAt at h
  obtain ⟨mt, hmt, h2⟩ := firstSome_eq_some h
  obtain ⟨mt1, mt2⟩ := mt
  split at h2
  · rename_i r2 heq2
    obtain ⟨dt, hdt, h3⟩ := firstSome_eq_some h2
    obtain ⟨dt1, dt2⟩ := dt
    split at h3
    · rename_i r4 heq4
      obtain ⟨yt, hyt, h4⟩ := firstSome_eq_some h3
      obtain ⟨yt1, yt2⟩ := yt
      injection h4 with h4
      injection h4 with hm h4
      injection h4 with hd hy
      subst hm; subst hd; subst hy
      obtain ⟨hmd, hm1, hm2⟩ := digitTakes_mem 1 2 (by omega) hmt
      obtain ⟨hdd, hd1, hd2⟩ := digitTakes_mem 1 2 (by omega) hdt
      obtain ⟨hyd, hy1, hy2⟩ := digitTakes_mem 2 4 (by omega) hyt
      refine ⟨⟨?_, hmd, hm2⟩, ⟨?_, hdd, hd2⟩, ⟨?_, hyd, hy1, hy2⟩⟩ <;>
        (intro hnil; subst hnil; simp_all)
    · exact absurd h3 (by simp)
  · exact absurd h2 (by simp)

theorem monthMatchAt_groups {cs mo dy y : List Char}
    (h : monthMatchAt cs = some (mo, dy, y)) :
    (∃ name ∈ monthNames, mo.map Char.toLower = name.data.map Char.toLower)
    ∧ dy ≠ [] ∧ dy.all isDigitChar = true
    ∧ y ≠ [] ∧ y.all isDigitChar = true ∧ y.length = 4 := by
  unfold monthMatchAt at h
  cases hma : monthAlt cs with
  | none => rw [hma] at h; exact absurd h (by simp)
  | some mr =>
    obtain ⟨mo2, r1⟩ := mr
    rw [hma] at h
    obtain ⟨s1, hs1, h2⟩ := firstSome_eq_some h
    obtain ⟨dt, hdt, h3⟩ := firstSome_eq_some h2
    obtain ⟨dt1, dt2⟩ := dt
    obtain ⟨s2, hs2, h4⟩ := firstSome_eq_some h3
    obtain ⟨yt, hyt, h5⟩ := firstSome_eq_some h4
    obtain ⟨yt1, yt2⟩ := yt
    injection h5 with h5
    injection h5 with hmo h5
    injection h5 with hdy hy
    subst hmo; subst hdy; subst hy
    obtain ⟨hdd, hd1, hd2⟩ := digitTakes_mem 1 2 (by omega) hdt
    obtain ⟨hyd, hy1, hy2⟩ := digitTakes_mem 4 4 (by omega) hyt
    refine ⟨monthAlt_eq_some hma, ?_, hdd, ?_, hyd, ?_⟩
    · intro hnil
      have h0 : dt1 = [] := hnil
      subst h0
      simp at hd1
    · intro hnil
      have h0 : yt1 = [] := hnil
      subst h0
      simp at hy1
    · show yt1.length = 4
      omega

theorem digitChar10_isDigit : ∀ d < 10, isDigitChar (digitChar10 d) = true := by
  decide

theorem digitChar10_toNat : ∀ d < 10, (digitChar10 d).toNat = 48 + d := by
  decide

theorem natStrAux_eq_digits : ∀ fuel n, n ≤ fuel →
    natStrAux fuel n = ((Nat.digits 10 n).map digitChar10).reverse := by
  intro fuel
  induction fuel with
  | zero =>
    intro n h
    have h0 : n = 0 := by omega
    subst h0
    simp [natStrAux]
  | succ fuel ih =>
    intro n h
    match n with
    | 0 => simp [natStrAux]
    | n + 1 =>
      rw [natStrAux, ih ((n + 1) / 10) (by omega),
          Nat.digits_def' (by norm_num) (Nat.succ_pos n)]
      simp

theorem natOfDigits_append_one (xs : List Char) (c : Char) :
    natOfDigits (xs ++ [c]) = 10 * natOfDigits xs + (c.toNat - 48) := by
  unfold natOfDigits
  rw [List.foldl_append]
  rfl

theorem natOfDigits_reverse_map : ∀ ds : List Nat, (∀ d ∈ ds, d < 10) →
    natOfDigits ((ds.map digitChar10).reverse) = Nat.ofDigits 10 ds := by
  intro ds
  induction ds with
  | nil => intro _; rfl
  | cons d ds ih =>
    intro h
    simp only [List.map, List.reverse_cons]
    rw [natOfDigits_append_one, ih (fun x hx => h x (by simp [hx])),
        digitChar10_toNat d (h d (by simp)), Nat.ofDigits_cons]
    omega

theorem natOfDigits_natStr (n : Nat) : natOfDigits (natStr n).data = n := by
  unfold natStr
  split
  · rename_i h0
    subst h0
    rfl
  · rename_i h0
    show natOfDigits (natStrAux n n) = n
    rw [natStrAux_eq_digits n n le_rfl,
        natOfDigits_reverse_map _ (fun d hd => Nat.digits_lt_base (by norm_num) hd)]
    exact_mod_cast Nat.ofDigits_digits 10 n

theorem natStr_inj {a b : Nat} (h : natStr a = natStr b) : a = b := by
  have h2 := congrArg (fun s => natOfDigits s.data) h
  simpa [natOfDigits_natStr] using h2

theorem natStr_ne_nil (n : Nat) : (natStr n).data ≠ [] := by
  unfold natStr
  split
  · decide
  · rename_i h0
    show natStrAux n n ≠ []
    rw [natStrAux_eq_digits n n le_rfl]
    simp [Nat.digits_ne_nil_iff_ne_zero, h0]

theorem natStr_all_digits (n : Nat) : (natStr n).data.all isDigitChar = true := by
  unfold natStr
  split
  · decide
  · show (natStrAux n n).all isDigitChar = true
    rw [natStrAux_eq_digits n n le_rfl]
    rw [List.all_eq_true]
    intro c hc
    rw [List.mem_reverse, List.mem_map] at hc
    obtain ⟨d, hd, rfl⟩ := hc
    exact digitChar10_isDigit d (Nat.digits_lt_base (by norm_num) hd)

theorem pad2_ne_nil (n : Nat) : (pad2 n).data ≠ [] := by
  unfold pad2
  split
  · rw [String.data_append]
    simp
  · exact natStr_ne_nil n

theorem pad2_all_digits (n : Nat) : (pad2 n).data.all isDigitChar = true := by
  unfold pad2
  split
  · rw [String.data_append, List.all_append, Bool.and_eq_true]
    exact ⟨by decide, natStr_all_digits n⟩
  · exact natStr_all_digits n

theorem bodyComps_good (b : String) :
    (∀ s, (bodyComps b).year = some s → (s.data ≠ [] ∧ s.data.all isDigitChar = true))
    ∧ (∀ s, (bodyComps b).month = some s → (s.data ≠ [] ∧ s.data.all isDigitChar = true))
    ∧ (∀ s, (bodyComps b).day = some s → (s.data ≠ [] ∧ s.data.all isDigitChar = true)) := by
  unfold bodyComps
  cases hbs : bodySearch b with
  | none => simp
  | some t =>
    obtain ⟨mo, dy, yr⟩ := t
    obtain ⟨cs2, hcs2⟩ := searchAux_eq_some hbs
    obtain ⟨hmon, hdyne, hdydig, hyr⟩ := bodyMatchAt_groups hcs2
    simp only
    refine ⟨?_, ?_, ?_⟩
    · intro s hs
      cases yr with
      | none => exact absurd hs (by simp)
      | some y =>
        have hs2 : (if y.isEmpty then none else some (String.mk y)) = some s := hs
        clear hs
        rename' hs2 => hs
        split at hs
        · exact absurd hs (by simp)
        · injection hs with hs
          subst hs
          obtain ⟨hne, hdig⟩ := hyr y rfl
          exact ⟨hne, hdig⟩
    · intro s hs
      split at hs
      · exact absurd hs (by simp)
      · injection hs with hs
        subst hs
        exact ⟨pad2_ne_nil _, pad2_all_digits _⟩
    · intro s hs
      split at hs
      · exact absurd hs (by simp)
      · injection hs with hs
        subst hs
        exact ⟨pad2_ne_nil _, pad2_all_digits _⟩

theorem numComps_good (hd : String) :
    (∀ s, (numComps hd).year = some s → (s.data ≠ [] ∧ s.data.all isDigitChar = true))
    ∧ (∀ s, (numComps hd).month = some s → (s.data ≠ [] ∧ s.data.all isDigitChar = true))
    ∧ (∀ s, (numComps hd).day = some s → (s.data ≠ [] ∧ s.data.all isDigitChar = true)) := by
  unfold numComps
  cases hns : numSearch hd with
  | none => simp
  | some t =>
    obtain ⟨m, d, y⟩ := t
    simp only
    refine ⟨?_, ?_, ?_⟩
    · intro s hs
      split at hs
      · exact absurd hs (by simp)
      · injection hs with hs
        subst hs
        exact ⟨natStr_ne_nil _, natStr_all_digits _⟩
    · intro s hs
      injection hs with hs
      subst hs
      exact ⟨pad2_ne_nil _, pad2_all_digits _⟩
    · intro s hs
      injection hs with hs
      subst hs
      exact ⟨pad2_ne_nil _, pad2_all_digits _⟩

theorem monthComps_good (hd : String) :
    (∀ s, (monthComps hd).year = some s → (s.data ≠ [] ∧ s.data.all isDigitChar = true))
    ∧ (∀ s, (monthComps hd).month = some s → (s.data ≠ [] ∧ s.data.all isDigitChar = true))
    ∧ (∀ s, (monthComps hd).day = some s → (s.data ≠ [] ∧ s.data.all isDigitChar = true)) := by
  unfold monthComps
  cases hms : monthSearch hd with
  | none => simp
  | some t =>
    obtain ⟨mo, dy, y⟩ := t
    obtain ⟨cs2, hcs2⟩ := searchAux_eq_some hms
    obtain ⟨hmon, hdyne, hdydig, hyne, hydig, hylen⟩ := monthMatchAt_groups hcs2
    simp only
    refine ⟨?_, ?_, ?_⟩
    · intro s hs
      injection hs with hs
      subst hs
      exact ⟨hyne, hydig⟩
    · intro s hs
      injection hs with hs
      subst hs
      exact ⟨pad2_ne_nil _, pad2_all_digits _⟩
    · intro s hs
      injection hs with hs
      subst hs
      exact ⟨pad2_ne_nil _, pad2_all_digits _⟩

theorem orElse_cases {s : String} {a b : Option String}
    (h : (a <|> b) = some s) : a = some s ∨ b = some s := by
  cases a with
  | none => right; simpa using h
  | some x => left; simpa using h

theorem resolveComps_good (b hd : String) :
    (∀ s, (resolveComps b hd).year = some s → (s.data ≠ [] ∧ s.data.all isDigitChar = true))
    ∧ (∀ s, (resolveComps b hd).month = some s → (s.data ≠ [] ∧ s.data.all isDigitChar = true))
    ∧ (∀ s, (resolveComps b hd).day = some s → (s.data ≠ [] ∧ s.data.all isDigitChar = true)) := by
  rw [resolveComps_eq_fill]
  have hb := bodyComps_good b
  have hn := numComps_good hd
  have hm := monthComps_good hd
  refine ⟨?_, ?_, ?_⟩ <;> intro s hs
  · rcases orElse_cases hs with h | h
    · rcases orElse_cases h with h2 | h2
      · exact hb.1 s h2
      · exact hn.1 s h2
    · exact hm.1 s h
  · rcases orElse_cases hs with h | h
    · rcases orElse_cases h with h2 | h2
      · exact hb.2.1 s h2
      · exact hn.2.1 s h2
    · exact hm.2.1 s h
  · rcases orElse_cases hs with h | h
    · rcases orElse_cases h with h2 | h2
      · exact hb.2.2 s h2
      · exact hn.2.2 s h2
    · exact hm.2.2 s h

/-- C5: `extract_date` is total — every input record yields an output
record (no record is skipped), the date is always present and shaped
`year-month-day`, each component is either an all-digit string or its
literal placeholder (`yyyy`, `mm`, `dd`), and with no date cue in either
the body or the decoded href the date is exactly `yyyy-mm-dd`. -/
theorem extract_date_total :
    (∀ links, (extract_date links).length = links.length)
    ∧ (∀ item : LinkRecord, ∃ y m d,
        (extract_date_item item).date = y ++ "-" ++ m ++ "-" ++ d
        ∧ (y = "yyyy" ∨ (y ≠ "" ∧ y.data.all isDigitChar = true))
        ∧ (m = "mm" ∨ (m ≠ "" ∧ m.data.all isDigitChar = true))
        ∧ (d = "dd" ∨ (d ≠ "" ∧ d.data.all isDigitChar = true))
        ∧ ((bodySearch item.body = none ∧ numSearch (unquote item.href) = none
            ∧ monthSearch (unquote item.href) = none) →
           (y = "yyyy" ∧ m = "mm" ∧ d = "dd"))) := by
  constructor
  · intro links
    exact List.length_map links extract_date_item
  · intro item
    have hgood := resolveComps_good item.body (unquote item.href)
    refine ⟨(resolveComps item.body (unquote item.href)).year.getD "yyyy",
            (resolveComps item.body (unquote item.href)).month.getD "mm",
            (resolveComps item.body (unquote item.href)).day.getD "dd",
            rfl, ?_, ?_, ?_, ?_⟩
    · cases hy : (resolveComps item.body (unquote item.href)).year with
      | none => left; rfl
      | some s =>
        right
        obtain ⟨hne, hdig⟩ := hgood.1 s hy
        refine ⟨fun he => hne ?_, by simpa using hdig⟩
        have h3 : s = "" := he
        rw [h3]
    · cases hy : (resolveComps item.body (unquote item.href)).month with
      | none => left; rfl
      | some s =>
        right
        obtain ⟨hne, hdig⟩ := hgood.2.1 s hy
        refine ⟨fun he => hne ?_, by simpa using hdig⟩
        have h3 : s = "" := he
        rw [h3]
    · cases hy : (resolveComps item.body (unquote item.href)).day with
      | none => left; rfl
      | some s =>
        right
        obtain ⟨hne, hdig⟩ := hgood.2.2 s hy
        refine ⟨fun he => hne ?_, by simpa using hdig⟩
        have h3 : s = "" := he
        rw [h3]
    · rintro ⟨hb, hn, hm⟩
      have h1 : bodyComps item.body = ⟨none, none, none⟩ := by
        unfold bodyComps; rw [hb]
      have h2 : numComps (unquote item.href) = ⟨none, none, none⟩ := by
        unfold numComps; rw [hn]
      have h3 : monthComps (unquote item.href) = ⟨none, none, none⟩ := by
        unfold monthComps; rw [hm]
      rw [resolveComps_eq_fill, h1, h2, h3]
      exact ⟨rfl, rfl, rfl⟩

theorem extract_date_total_witness :
    (extract_date_item ⟨"/agendas/minutes-final", "Hearing agenda"⟩).date
      = "yyyy-mm-dd" := by
  obtain ⟨y, m, d, hdate, hy, hm, hd, hnone⟩ :=
    extract_date_total.2 ⟨"/agendas/minutes-final", "Hearing agenda"⟩
  obtain ⟨hy2, hm2, hd2⟩ := hnone ⟨by rfl, by rfl, by rfl⟩
  rw [hdate, hy2, hm2, hd2]
  rfl

/-- C6: when the numeric href strategy matches and the year group is below
100, the year is normalized by adding 2000; with no body date the full
resolved date comes from the numeric match with the normalized year. -/
theorem two_digit_year_normalized (item : LinkRecord) (m d y : List Char)
    (hnum : numSearch (unquote item.href) = some (m, d, y))
    (hy : natOfDigits y < 100)
    (hbody : bodySearch item.body = none) :
    (extract_date_item item).date
      = natStr (natOfDigits y + 2000) ++ "-" ++ pad2 (natOfDigits m)
          ++ "-" ++ pad2 (natOfDigits d) := by
  obtain ⟨cs2, hcs2⟩ := searchAux_eq_some hnum
  have hyne : y ≠ [] := (numMatchAt_groups hcs2).2.2.1
  have h1 : bodyComps item.body = ⟨none, none, none⟩ := by
    unfold bodyComps
    rw [hbody]
  have h2 : numComps (unquote item.href)
      = ⟨some (natStr (natOfDigits y + 2000)), some (pad2 (natOfDigits m)),
         some (pad2 (natOfDigits d))⟩ := by
    unfold numComps
    rw [hnum]
    have hyne2 : y.isEmpty = false := by
      cases y with
      | nil => exact absurd rfl hyne
      | cons a l => rfl
    simp [hyne2, hy]
  show (resolveComps item.body (unquote item.href)).dateString = _
  rw [resolveComps_eq_fill, h1, h2]
  simp [Comps.fillFrom, Comps.dateString]

theorem two_digit_year_normalized_witness :
    numSearch (unquote "/07-04-23/doc.pdf")
        = some (['0', '7'], ['0', '4'], ['2', '3'])
    ∧ natOfDigits ['2', '3'] < 100
    ∧ bodySearch "" = none
    ∧ (extract_date_item ⟨"/07-04-23/doc.pdf", ""⟩).date = "2023-07-04" := by
  refine ⟨by decide, by decide, by rfl, ?_⟩
  have h := two_digit_year_normalized ⟨"/07-04-23/doc.pdf", ""⟩
    ['0', '7'] ['0', '4'] ['2', '3'] (by decide) (by decide) (by rfl)
  rw [h]
  rfl

theorem char_toNat_ofNat_valid {n : Nat} (h : n < 55296) :
    (Char.ofNat n).toNat = n := by
  rw [Char.ofNat, dif_pos (Or.inl h)]
  rfl

theorem char_eq_of_toNat_eq {c p : Char} (h : c.toNat = p.toNat) : c = p := by
  have h2 := Char.ofNat_toNat c
  rw [h, Char.ofNat_toNat] at h2
  exact h2.symm

theorem char_toNat_lt (c : Char) : c.toNat < 1114112 := by
  have h : c.val.toNat < 55296 ∨ (57344 ≤ c.val.toNat ∧ c.val.toNat < 1114112) :=
    c.valid
  show c.val.toNat < 1114112
  omega

theorem toUpper_congr (c p : Char) (h : c.toLower = p.toLower) :
    c.toUpper = p.toUpper := by
  have hlc : c.toLower = if c.toNat ≥ 65 ∧ c.toNat ≤ 90
      then Char.ofNat (c.toNat + 32) else c := rfl
  have hlp : p.toLower = if p.toNat ≥ 65 ∧ p.toNat ≤ 90
      then Char.ofNat (p.toNat + 32) else p := rfl
  have huc : c.toUpper = if c.toNat ≥ 97 ∧ c.toNat ≤ 122
      then Char.ofNat (c.toNat - 32) else c := rfl
  have hup : p.toUpper = if p.toNat ≥ 97 ∧ p.toNat ≤ 122
      then Char.ofNat (p.toNat - 32) else p := rfl
  rw [hlc, hlp] at h
  rw [huc, hup]
  by_cases hc : c.toNat ≥ 65 ∧ c.toNat ≤ 90
  · rw [if_pos hc] at h
    by_cases hp : p.toNat ≥ 65 ∧ p.toNat ≤ 90
    · rw [if_pos hp] at h
      have h2 := congrArg Char.toNat h
      rw [char_toNat_ofNat_valid (by omega), char_toNat_ofNat_valid (by omega)] at h2
      have h3 : c = p := char_eq_of_toNat_eq (by omega)
      rw [h3]
    · rw [if_neg hp] at h
      have h2 := congrArg Char.toNat h
      rw [char_toNat_ofNat_valid (by omega)] at h2
      rw [if_neg (by omega), if_pos (by omega)]
      rw [show p.toNat - 32 = c.toNat by omega, Char.ofNat_toNat]
  · rw [if_neg hc] at h
    by_cases hp : p.toNat ≥ 65 ∧ p.toNat ≤ 90
    · rw [if_pos hp] at h
      have h2 := congrArg Char.toNat h
      rw [char_toNat_ofNat_valid (by omega)] at h2
      rw [if_pos (by omega), if_neg (by omega)]
      rw [show c.toNat - 32 = p.toNat by omega, Char.ofNat_toNat]
    · rw [if_neg hp] at h
      rw [h]

theorem pyCapitalize_of_ci (t : List Char) (p0 : Char) (ptail : List Char)
    (h : t.map Char.toLower = (p0 :: ptail).map Char.toLower) :
    pyCapitalize (String.mk t) = String.mk (p0.toUpper :: ptail.map Char.toLower) := by
  cases t with
  | nil => exact absurd h (by simp)
  | cons t0 tt =>
    simp only [List.map] at h
    injection h with h0 h1
    show String.mk (t0.toUpper :: tt.map Char.toLower) = _
    rw [toUpper_congr t0 p0 h0, h1]

theorem month_lookup_of_ci {t : List Char} {name : String} (hname : name ∈ monthNames)
    (h : t.map Char.toLower = name.data.map Char.toLower) :
    (MONTH_NAME_TO_NUM.lookup (pyCapitalize (String.mk t))).isSome = true := by
  simp only [monthNames, List.mem_cons, List.not_mem_nil, or_false] at hname
  rcases hname with rfl | rfl | rfl | rfl | rfl | rfl | rfl | rfl | rfl | rfl | rfl | rfl
  · rw [pyCapitalize_of_ci t 'J' "anuary".data h]; decide
  · rw [pyCapitalize_of_ci t 'F' "ebruary".data h]; decide
  · rw [pyCapitalize_of_ci t 'M' "arch".data h]; decide
  · rw [pyCapitalize_of_ci t 'A' "pril".data h]; decide
  · rw [pyCapitalize_of_ci t 'M' "ay".data h]; decide
  · rw [pyCapitalize_of_ci t 'J' "une".data h]; decide
  · rw [pyCapitalize_of_ci t 'J' "uly".data h]; decide
  · rw [pyCapitalize_of_ci t 'A' "ugust".data h]; decide
  · rw [pyCapitalize_of_ci t 'S' "eptember".data h]; decide
  · rw [pyCapitalize_of_ci t 'O' "ctober".data h]; decide
  · rw [pyCapitalize_of_ci t 'N' "ovember".data h]; decide
  · rw [pyCapitalize_of_ci t 'D' "ecember".data h]; decide

/-- C10: every month name matched by the body pattern or by the named-month
href pattern is, after `capitalize`, a key of `MONTH_NAME_TO_NUM`, so the
dictionary lookup in `extract_date` can never fail: an unrecognized month
name never matches the patterns in the first place. -/
theorem month_lookup_safe :
    (∀ s mo dy yr, bodySearch s = some (mo, dy, yr) →
       (MONTH_NAME_TO_NUM.lookup (pyCapitalize (String.mk mo))).isSome = true)
    ∧ (∀ s mo dy y, monthSearch s = some (mo, dy, y) →
       (MONTH_NAME_TO_NUM.lookup (pyCapitalize (String.mk mo))).isSome = true) := by
  constructor
  · intro s mo dy yr h
    obtain ⟨cs2, hcs2⟩ := searchAux_eq_some h
    obtain ⟨⟨name, hname, hci⟩, -⟩ := bodyMatchAt_groups hcs2
    exact month_lookup_of_ci hname hci
  · intro s mo dy y h
    obtain ⟨cs2, hcs2⟩ := searchAux_eq_some h
    obtain ⟨⟨name, hname, hci⟩, -⟩ := monthMatchAt_groups hcs2
    exact month_lookup_of_ci hname hci

theorem month_lookup_safe_witness :
    bodySearch "Meeting MARCH 5, 2021"
        = some (['M', 'A', 'R', 'C', 'H'], ['5'], some ['2', '0', '2', '1'])
    ∧ (MONTH_NAME_TO_NUM.lookup
        (pyCapitalize (String.mk ['M', 'A', 'R', 'C', 'H']))).isSome = true := by
  refine ⟨by decide, ?_⟩
  exact month_lookup_safe.1 "Meeting MARCH 5, 2021"
    ['M', 'A', 'R', 'C', 'H'] ['5'] (some ['2', '0', '2', '1']) (by decide)

theorem natStr_length_pos (n : Nat) : 0 < (natStr n).length := by
  have h := natStr_ne_nil n
  show 0 < (natStr n).data.length
  exact List.length_pos.2 h

theorem candidate_name_inj (date : String) {i j : Nat} (hi : 1 ≤ i) (hj : 1 ≤ j)
    (h : candidate_name date i = candidate_name date j) : i = j := by
  unfold candidate_name at h
  by_cases hi1 : i = 1 <;> by_cases hj1 : j = 1
  · rw [hi1, hj1]
  · rw [if_pos hi1, if_neg hj1] at h
    have hlen := congrArg String.length h
    simp only [String.length_append] at hlen
    have l1 : ("voting_minutes_" : String).length = 15 := rfl
    have l2 : ("_v" : String).length = 2 := rfl
    have l3 : (".pdf" : String).length = 4 := rfl
    have l4 := natStr_length_pos j
    omega
  · rw [if_neg hi1, if_pos hj1] at h
    have hlen := congrArg String.length h
    simp only [String.length_append] at hlen
    have l1 : ("voting_minutes_" : String).length = 15 := rfl
    have l2 : ("_v" : String).length = 2 := rfl
    have l3 : (".pdf" : String).length = 4 := rfl
    have l4 := natStr_length_pos i
    omega
  · rw [if_neg hi1, if_neg hj1] at h
    have hdata := congrArg String.data h
    simp only [String.data_append, List.append_assoc] at hdata
    have h2 := List.append_cancel_left hdata
    have h3 := List.append_cancel_left h2
    have h4 := List.append_cancel_left h3
    have h5 := List.append_cancel_right h4
    exact natStr_inj (String.ext h5)

theorem lookup_eq_some_mem {store : Store} {k : String} {v : Bytes}
    (h : store.lookup k = some v) : k ∈ store.map Prod.fst := by
  induction store with
  | nil => exact absurd h (by simp)
  | cons e rest ih =>
    obtain ⟨k2, v2⟩ := e
    rw [List.lookup] at h
    cases hbeq : k == k2 with
    | true =>
      rw [List.map]
      exact List.mem_cons.2 (Or.inl (eq_of_beq hbeq))
    | false =>
      rw [hbeq] at h
      rw [List.map]
      exact List.mem_cons.2 (Or.inr (ih h))

theorem exists_absent_slot (store : Store) (date : String) :
    ∃ i, 1 ≤ i ∧ i ≤ store.length + 1
      ∧ store.lookup (candidate_name date i) = none := by
  by_contra hcon
  push_neg at hcon
  have hmap : ∀ i ∈ Finset.Icc 1 (store.length + 1),
      candidate_name date i ∈ (store.map Prod.fst).toFinset := by
    intro i hi
    rw [Finset.mem_Icc] at hi
    rw [List.mem_toFinset]
    cases hl : store.lookup (candidate_name date i) with
    | none => exact absurd hl (hcon i hi.1 hi.2)
    | some v => exact lookup_eq_some_mem hl
  have hinj : Set.InjOn (fun i => candidate_name date i)
      (Finset.Icc 1 (store.length + 1)) := by
    intro a ha b hb hab
    rw [Finset.coe_Icc, Set.mem_Icc] at ha hb
    exact candidate_name_inj date ha.1 hb.1 hab
  have hcard := Finset.card_le_card_of_injOn _ hmap hinj
  rw [Nat.card_Icc] at hcard
  have hle := List.toFinset_card_le (store.map Prod.fst)
  rw [List.length_map] at hle
  omega

theorem save_loop_match (c : Bytes) (date : String) (store : Store) (k : Nat) :
    ∀ fuel index, index ≤ k → k < index + fuel →
    (∀ i, index ≤ i → i < k →
      ∃ b, store.lookup (candidate_name date i) = some b ∧ sha256 b ≠ sha256 c) →
    (∃ bk, store.lookup (candidate_name date k) = some bk ∧ sha256 bk = sha256 c) →
    save_loop c date store fuel index = some (candidate_name date k, store) := by
  intro fuel
  induction fuel with
  | zero =>
    intro index h1 h2 _ _
    omega
  | succ fuel ih =>
    intro index h1 h2 hmid hk
    by_cases hik : index = k
    · subst hik
      obtain ⟨bk, hbk, hbkeq⟩ := hk
      rw [save_loop]
      simp only [hbk]
      rw [if_pos hbkeq]
    · have hlt : index < k := by omega
      obtain ⟨b, hb, hbne⟩ := hmid index le_rfl hlt
      rw [save_loop]
      simp only [hb]
      rw [if_neg hbne]
      exact ih (index + 1) (by omega) (by omega)
        (fun i hi1 hi2 => hmid i (by omega) hi2) hk

theorem save_loop_write (c : Bytes) (date : String) (store : Store) (k : Nat) :
    ∀ fuel index, index ≤ k → k < index + fuel →
    (∀ i, index ≤ i → i < k →
      ∃ b, store.lookup (candidate_name date i) = some b ∧ sha256 b ≠ sha256 c) →
    store.lookup (candidate_name date k) = none →
    save_loop c date store fuel index
      = some (candidate_name date k, (candidate_name date k, c) :: store) := by
  intro fuel
  induction fuel with
  | zero =>
    intro index h1 h2 _ _
    omega
  | succ fuel ih =>
    intro index h1 h2 hmid hk
    by_cases hik : index = k
    · subst hik
      rw [save_loop]
      simp only [hk]
    · have hlt : index < k := by omega
      obtain ⟨b, hb, hbne⟩ := hmid index le_rfl hlt
      rw [save_loop]
      simp only [hb]
      rw [if_neg hbne]
      exact ih (index + 1) (by omega) (by omega)
        (fun i hi1 hi2 => hmid i (by omega) hi2) hk

theorem slotContent_cons (store : Store) (date : String) (j i : Nat) (c : Bytes)
    (hi : 1 ≤ i) (hj : 1 ≤ j) :
    slotContent ((candidate_name date j, c) :: store) date i
      = if i = j then some c else slotContent store date i := by
  unfold slotContent
  rw [List.lookup]
  by_cases hij : i = j
  · subst hij
    simp
  · have hne : candidate_name date i ≠ candidate_name date j :=
      fun he => hij (candidate_name_inj date hi hj he)
    rw [if_neg hij]
    have hbeq : (candidate_name date i == candidate_name date j) = false := by
      rw [beq_eq_false_iff_ne]
      exact hne
    rw [hbeq]

theorem wf_n_le_length (store : Store) (date : String) (n : Nat)
    (hwf : WellFormed store date n) : n ≤ store.length := by
  have hmap : ∀ i ∈ Finset.Icc 1 n,
      candidate_name date i ∈ (store.map Prod.fst).toFinset := by
    intro i hi
    rw [Finset.mem_Icc] at hi
    rw [List.mem_toFinset]
    have hsome := (hwf.filled i hi.1).2 hi.2
    cases hl : store.lookup (candidate_name date i) with
    | none => rw [slotContent, hl] at hsome; exact absurd hsome (by simp)
    | some v => exact lookup_eq_some_mem hl
  have hinj : Set.InjOn (fun i => candidate_name date i) (Finset.Icc 1 n) := by
    intro a ha b hb hab
    rw [Finset.coe_Icc, Set.mem_Icc] at ha hb
    exact candidate_name_inj date ha.1 hb.1 hab
  have hcard := Finset.card_le_card_of_injOn _ hmap hinj
  rw [Nat.card_Icc] at hcard
  have hle := List.toFinset_card_le (store.map Prod.fst)
  rw [List.length_map] at hle
  omega

theorem save_loop_total (c : Bytes) (date : String) (store : Store) :
    (save_loop c date store (store.length + 1) 1).isSome = true := by
  classical
  obtain ⟨i0, hi01, hi0le, hi0none⟩ := exists_absent_slot store date
  have hP : ∃ m, store.lookup (candidate_name date (m + 1)) = none
      ∨ ∃ b, store.lookup (candidate_name date (m + 1)) = some b
        ∧ sha256 b = sha256 c := by
    refine ⟨i0 - 1, Or.inl ?_⟩
    rw [show i0 - 1 + 1 = i0 by omega]
    exact hi0none
  have hk := Nat.find_spec hP
  have hmid : ∀ i, 1 ≤ i → i < Nat.find hP + 1 →
      ∃ b, store.lookup (candidate_name date i) = some b
        ∧ sha256 b ≠ sha256 c := by
    intro i h1 h2
    have hnP := Nat.find_min hP (show i - 1 < Nat.find hP by omega)
    rw [not_or] at hnP
    obtain ⟨hne, hnex⟩ := hnP
    rw [show i - 1 + 1 = i by omega] at hne hnex
    cases hl : store.lookup (candidate_name date i) with
    | none => exact absurd hl hne
    | some b =>
      refine ⟨b, rfl, fun heq => hnex ⟨b, hl, heq⟩⟩
  have hkle : Nat.find hP + 1 ≤ store.length + 1 := by
    have hfind : Nat.find hP ≤ i0 - 1 := by
      apply Nat.find_min'
      refine Or.inl ?_
      rw [show i0 - 1 + 1 = i0 by omega]
      exact hi0none
    omega
  rcases hk with hnone | ⟨bk, hbk, hbkeq⟩
  · rw [save_loop_write c date store (Nat.find hP + 1) (store.length + 1) 1
      (by omega) (by omega) hmid hnone]
    rfl
  · rw [save_loop_match c date store (Nat.find hP + 1) (store.length + 1) 1
      (by omega) (by omega) hmid ⟨bk, hbk, hbkeq⟩]
    rfl

/-- C9: `save_data` always terminates — the increasing-index probe stops at
the first absent candidate or the first digest match, and because the store
holds finitely many files an absent candidate exists among the first
`store.length + 1` indices, so the loop's fuel never runs out. -/
theorem save_data_terminates (c : Bytes) (date : String) (store : Store) :
    (save_data c date store).isSome = true := by
  unfold save_data
  cases hl : store.lookup (candidate_name date 1) with
  | none =>
    simp only [hl]
    rw [if_neg (by simp)]
    exact save_loop_total c date store
  | some e =>
    simp only [hl]
    by_cases he : sha256 e = sha256 c
    · rw [if_pos (by simp [he])]
      rfl
    · rw [if_neg (by simp [he])]
      exact save_loop_total c date store

/-- C1: on a store reachable by `save_data` for a date (slots `1..n`
occupied by pairwise distinct digests), saving bytes whose digest matches a
stored slot returns that slot's path and writes nothing; saving bytes whose
digest differs from every stored slot writes them to the first absent slot
`n + 1`, and the resulting store is again well formed — so no two stored
files for a date ever share identical bytes, and re-saving stored bytes
resolves to the existing file rather than creating a new version. -/
theorem save_data_content_addressed (store : Store) (date : String) (n : Nat)
    (c : Bytes) (hwf : WellFormed store date n) :
    (∀ k b, 1 ≤ k → slotContent store date k = some b → sha256 b = sha256 c →
       save_data c date store = some (candidate_name date k, store))
    ∧ ((∀ k b, 1 ≤ k → slotContent store date k = some b → sha256 b ≠ sha256 c) →
       save_data c date store
         = some (candidate_name date (n + 1), (candidate_name date (n + 1), c) :: store)
       ∧ WellFormed ((candidate_name date (n + 1), c) :: store) date (n + 1)) := by
  constructor
  · intro k b hk hslot hsha
    have hkn : k ≤ n := (hwf.filled k hk).1 (by rw [slotContent] at hslot; rw [slotContent, hslot]; rfl)
    have hmid : ∀ i, 1 ≤ i → i < k →
        ∃ bi, store.lookup (candidate_name date i) = some bi
          ∧ sha256 bi ≠ sha256 c := by
      intro i h1 h2
      have hsome := (hwf.filled i h1).2 (by omega)
      cases hl : store.lookup (candidate_name date i) with
      | none =>
        rw [slotContent, hl] at hsome
        exact absurd hsome (by simp)
      | some bi =>
        refine ⟨bi, rfl, fun heq => ?_⟩
        exact hwf.distinct i k bi b h1 h2 hl hslot (heq.trans hsha.symm)
    unfold save_data
    by_cases hk1 : k = 1
    · subst hk1
      have hl : store.lookup (candidate_name date 1) = some b := hslot
      simp only [hl]
      rw [if_pos (by simp [hsha])]
    · have h1n : 1 ≤ n := by omega
      have hsome1 := (hwf.filled 1 le_rfl).2 h1n
      cases hl1 : store.lookup (candidate_name date 1) with
      | none =>
        rw [slotContent, hl1] at hsome1
        exact absurd hsome1 (by simp)
      | some b1 =>
        have hb1ne : sha256 b1 ≠ sha256 c := by
          intro heq
          exact hwf.distinct 1 k b1 b le_rfl (by omega) hl1 hslot
            (heq.trans hsha.symm)
        simp only [hl1]
        rw [if_neg (by simp [hb1ne])]
        exact save_loop_match c date store k (store.length + 1) 1 hk
          (by have := wf_n_le_length store date n hwf; omega) hmid ⟨b, hslot, hsha⟩
  · intro hfresh
    have hnle := wf_n_le_length store date n hwf
    have hmid : ∀ i, 1 ≤ i → i < n + 1 →
        ∃ bi, store.lookup (candidate_name date i) = some bi
          ∧ sha256 bi ≠ sha256 c := by
      intro i h1 h2
      have hsome := (hwf.filled i h1).2 (by omega)
      cases hl : store.lookup (candidate_name date i) with
      | none =>
        rw [slotContent, hl] at hsome
        exact absurd hsome (by simp)
      | some bi => exact ⟨bi, rfl, hfresh i bi h1 hl⟩
    have habs : store.lookup (candidate_name date (n + 1)) = none := by
      cases hl : store.lookup (candidate_name date (n + 1)) with
      | none => rfl
      | some v =>
        have hle := (hwf.filled (n + 1) (by omega)).1
          (by rw [slotContent, hl]; rfl)
        omega
    have hmain : save_data c date store
        = some (candidate_name date (n + 1), (candidate_name date (n + 1), c) :: store) := by
      unfold save_data
      cases hl1 : store.lookup (candidate_name date 1) with
      | none =>
        simp only [hl1]
        rw [if_neg (by simp)]
        exact save_loop_write c date store (n + 1) (store.length + 1) 1
          (by omega) (by omega) hmid habs
      | some b1 =>
        have hb1 : sha256 b1 ≠ sha256 c := hfresh 1 b1 le_rfl hl1
        simp only [hl1]
        rw [if_neg (by simp [hb1])]
        exact save_loop_write c date store (n + 1) (store.length + 1) 1
          (by omega) (by omega) hmid habs
    refine ⟨hmain, ?_, ?_⟩
    · intro i h1
      rw [slotContent_cons store date (n + 1) i c h1 (by omega)]
      by_cases hij : i = n + 1
      · rw [if_pos hij]
        simp [hij]
      · rw [if_neg hij]
        rw [hwf.filled i h1]
        constructor <;> omega
    · intro i j bi bj h1i hij hsi hsj
      rw [slotContent_cons store date (n + 1) i c h1i (by omega)] at hsi
      rw [slotContent_cons store date (n + 1) j c (by omega) (by omega)] at hsj
      by_cases hin : i = n + 1
      · rw [if_pos hin] at hsi
        rw [if_neg (by omega)] at hsj
        have hjle := (hwf.filled j (by omega)).1 (by rw [hsj]; rfl)
        omega
      · rw [if_neg hin] at hsi
        by_cases hjn : j = n + 1
        · rw [if_pos hjn] at hsj
          injection hsj with hsj
          subst hsj
          exact fun heq => hfresh i bi h1i hsi heq
        · rw [if_neg hjn] at hsj
          exact hwf.distinct i j bi bj h1i hij hsi hsj

theorem save_data_content_addressed_witness :
    WellFormed [] "2024-01-02" 0
    ∧ save_data [37] "2024-01-02" []
        = some (candidate_name "2024-01-02" 1, [(candidate_name "2024-01-02" 1, [37])]) := by
  have hwf : WellFormed [] "2024-01-02" 0 := by
    constructor
    · intro i h1
      simp [slotContent]
      omega
    · intro i j bi bj h1 h2 hsi hsj
      simp [slotContent] at hsi
  refine ⟨hwf, ?_⟩
  have h := (save_data_content_addressed [] "2024-01-02" 0 [37] hwf).2
    (by intro k b hk hb; simp [slotContent] at hb)
  exact h.1

end Scrape
